import Mathlib

/-!
Verification of the election-survey data-cleaning logic
(`scripts/data_cleaning.py`, class `ElectionDataCleaner`).

The Python code is shallowly embedded here:
* strings are `List Char` (wrapped into `String` at the interface),
* a possibly-missing (NaN) cell is an `Option String`,
* each `re.sub` call of `clean_text` is implemented by a dedicated
  executable function faithful to its concrete pattern,
* the column patterns of `COLUMN_PATTERNS` are compiled into a small
  regex AST with Brzozowski-derivative matching, and `re.search`
  (with `re.IGNORECASE`) becomes `searchCI`.
-/

set_option maxRecDepth 16384

namespace ElectionCleaning

/-! ### Character classes

`isPySpace` is the Python class `\s` (Unicode whitespace).
`isPyWord` is the Python class `\w` restricted to the character repertoire this
development manipulates: ASCII alphanumerics, the underscore, and the
non-ASCII letters that occur in the literals of the source file
(Ã U+00C3, Â U+00C2, â U+00E2, œ U+0153).  All other characters that
appear in the source literals (¢ € ™ „ ‚ ¬) are not word characters in
Python either. -/

def isPySpace (c : Char) : Bool :=
  c = ' ' || c = '\t' || c = '\n' || c = '\x0d' || c = '\x0b' || c = '\x0c' ||
  ('\x1c' ≤ c && c ≤ '\x1f') ||
  c = '\u0085' || c = '\u00A0' || c = '\u1680' ||
  ('\u2000' ≤ c && c ≤ '\u200A') ||
  c = '\u2028' || c = '\u2029' || c = '\u202F' || c = '\u205F' || c = '\u3000'

def isPyWord (c : Char) : Bool :=
  ('a' ≤ c && c ≤ 'z') || ('A' ≤ c && c ≤ 'Z') || ('0' ≤ c && c ≤ '9') ||
  c = '_' || c = 'Ã' || c = 'Â' || c = 'â' || c = 'œ'

/-- ASCII lowering, the effect of `re.IGNORECASE` on the ASCII-only
column patterns. -/
def asciiLower (c : Char) : Char :=
  if 'A' ≤ c && c ≤ 'Z' then Char.ofNat (c.toNat + 32) else c

/-! ### `clean_text`, step by step

Order of operations in the source: seven literal `str.replace` calls,
then `re.sub` with `TEXT_PATTERNS['encoding_artifacts']`, then the
other `TEXT_PATTERNS` in dict order (apostrophes, quotes, whitespace,
special_chars, trailing, multiple_spaces), then `str.strip()`, then a
final `re.sub(r'\s+', ' ', ...)`, then `text or "Unknown"`. -/

/-- Python `str.replace pat rep`: replace all non-overlapping
occurrences, scanning left to right.  Structural recursion on a fuel
argument so the function reduces definitionally; `replaceAll` passes
`s.length` as fuel, which is sufficient because every step consumes at
least one character (the patterns of the source are never empty). -/
def replaceAllF (p r : List Char) : Nat → List Char → List Char
  | 0, s => s
  | _ + 1, [] => []
  | f + 1, c :: cs =>
    if p ≠ [] ∧ p.isPrefixOf (c :: cs) then
      r ++ replaceAllF p r f ((c :: cs).drop p.length)
    else
      c :: replaceAllF p r f cs

def replaceAll (p r s : List Char) : List Char :=
  replaceAllF p r s.length s

/-- The seven literal replacements of `clean_text` (lines 148–155 of the
source), with the exact code points of the file:
`'Ã¢' → 'a'`, `'Ât' → "'t"`, `'â€™' → "'"`, `'â€œ' → '"'`,
`'â€' → '"'`, `'Ã\x82Â\x92' → "'"`, `'Ã\x82Â' → "'"` (the targets of
source lines 154–155 contain the invisible control character U+0082
between the Ã and the Â, and line 154 ends in U+0092). -/
def litReplaces (s : List Char) : List Char :=
  let s := replaceAll ['Ã', '¢'] ['a'] s
  let s := replaceAll ['Â', 't'] ['\x27', 't'] s
  let s := replaceAll ['â', '€', '™'] ['\x27'] s
  let s := replaceAll ['â', '€', 'œ'] ['"'] s
  let s := replaceAll ['â', '€'] ['"'] s
  let s := replaceAll ['Ã', '\u0082', 'Â', '\u0092'] ['\x27'] s
  let s := replaceAll ['Ã', '\u0082', 'Â'] ['\x27'] s
  s

theorem length_dropWhile_le_self (p : Char → Bool) (l : List Char) :
    (l.dropWhile p).length ≤ l.length := by
  induction l with
  | nil => simp
  | cons a t ih =>
    by_cases ha : p a
    · simp [List.dropWhile, ha]; omega
    · simp [List.dropWhile, ha]

/-- One attempt of the `encoding_artifacts` pattern
`(?:Ã\s*Â|Ã\s*\w|\s*Â|Ât|â€™|â€|Ã¢â‚¬â„¢)` at the head of the string:
alternatives are tried in order (Python preference), `\s*` is greedy
(deterministic here because the follow character is never whitespace).
Returns the remainder after the match, or `none`; a match always
consumes at least one character (`tryArt_length_lt`). -/
def tryArt : List Char → Option (List Char)
  | [] => none
  | c :: cs =>
    if c = 'Ã' then
      -- alternatives `Ã\s*Â`, then `Ã\s*\w`, then the literal
      -- `Ã¢â‚¬â„¢` (the other alternatives cannot start with Ã).
      match cs.dropWhile isPySpace with
      | d :: v =>
        if d = 'Â' then some v
        else if isPyWord d then some v
        else if ['¢', 'â', '‚', '¬', 'â', '„', '¢'].isPrefixOf cs then
          some (cs.drop 7)
        else none
      | [] => none
    else if c = 'Â' then
      -- `\s*Â` with zero spaces (declared before the `Ât` alternative,
      -- so a lone Â is always consumed on its own).
      some cs
    else if isPySpace c then
      -- `\s*Â` starting on whitespace.
      match cs.dropWhile isPySpace with
      | d :: v => if d = 'Â' then some v else none
      | [] => none
    else if c = 'â' then
      match cs with
      | '€' :: '™' :: v => some v
      | '€' :: v => some v
      | _ => none
    else none

/-- `re.sub(TEXT_PATTERNS['encoding_artifacts'], '', text)`: scan left
to right, deleting each leftmost match.  Fuel-based structural
recursion; `scanArt` passes `s.length` as fuel, sufficient because a
match always consumes at least one character. -/
def scanArtF : Nat → List Char → List Char
  | 0, s => s
  | _ + 1, [] => []
  | f + 1, c :: cs =>
    match tryArt (c :: cs) with
    | some rest => scanArtF f rest
    | none => c :: scanArtF f cs

def scanArt (s : List Char) : List Char :=
  scanArtF s.length s

/-- A match of the artifact pattern always consumes at least one
character, so `s.length` fuel never runs out in `scanArt`. -/
theorem tryArt_length_lt : ∀ s r, tryArt s = some r → r.length < s.length := by
  intro s r h
  rw [tryArt.eq_def] at h
  split at h
  · exact Option.noConfusion h
  · rename_i c cs
    split at h
    · split at h
      · rename_i d v hg
        have hc := length_dropWhile_le_self isPySpace cs
        rw [hg] at hc
        split at h
        · cases h; simp at hc ⊢; omega
        · split at h
          · cases h; simp at hc ⊢; omega
          · split at h
            · cases h
              have h7 := List.length_drop 7 cs
              simp [h7]; omega
            · exact Option.noConfusion h
      · exact Option.noConfusion h
    · split at h
      · cases h; simp
      · split at h
        · split at h
          · rename_i d v hg
            have hc := length_dropWhile_le_self isPySpace cs
            rw [hg] at hc
            split at h
            · cases h; simp at hc ⊢; omega
            · exact Option.noConfusion h
          · exact Option.noConfusion h
        · split at h
          · split at h
            · cases h; simp only [List.length_cons]; omega
            · cases h; simp only [List.length_cons]; omega
            · exact Option.noConfusion h
          · exact Option.noConfusion h

/-- `re.sub(r"['']", "'", text)`: the character class in the source holds
two plain ASCII apostrophes, so this maps `'` to `'` (an identity map,
kept for fidelity). -/
def mapApos (s : List Char) : List Char :=
  s.map (fun c => if c = '\x27' then '\x27' else c)

/-- `re.sub(r'["""]', '', text)`: the class holds three plain ASCII
double quotes; every `"` is removed. -/
def filterQuotes (s : List Char) : List Char :=
  s.filter (fun c => !(c = '"'))

/-- `re.sub(r'\s+', ' ', text)`: each maximal whitespace run becomes one
space.  The flag records whether the previous character was part of a
whitespace run. -/
def collapseWsAux : Bool → List Char → List Char
  | _, [] => []
  | prev, c :: cs =>
    if isPySpace c then
      if prev then collapseWsAux true cs else ' ' :: collapseWsAux true cs
    else c :: collapseWsAux false cs

def collapseWs (s : List Char) : List Char := collapseWsAux false s

/-- Characters kept by `re.sub(r"[^\w\s\'-]", '', text)`. -/
def keepChar (c : Char) : Bool :=
  isPyWord c || isPySpace c || c = '\x27' || c = '-'

def filterSpecial (s : List Char) : List Char :=
  s.filter keepChar

/-- `re.sub(r'^\s+|\s+$', '', text)` removes the leading and the trailing
whitespace run; that is exactly a both-ends trim.  `str.strip()` later
performs the same operation. -/
def trimWs (s : List Char) : List Char :=
  ((s.dropWhile isPySpace).reverse.dropWhile isPySpace).reverse

/-- `re.sub(r' +', ' ', text)`: each maximal run of plain spaces becomes
one space. -/
def collapseSpAux : Bool → List Char → List Char
  | _, [] => []
  | prev, c :: cs =>
    if c = ' ' then
      if prev then collapseSpAux true cs else ' ' :: collapseSpAux true cs
    else c :: collapseSpAux false cs

def collapseSpaces (s : List Char) : List Char := collapseSpAux false s

/-- The whole transformation `clean_text` applies to a present (non-NaN)
value, before the final `or "Unknown"`. -/
def cleanCore (s : List Char) : List Char :=
  collapseWs (trimWs (collapseSpaces (trimWs (filterSpecial
    (collapseWs (filterQuotes (mapApos (scanArt (litReplaces s)))))))))

/-- `clean_text` of the source: `None`/NaN becomes `"Unknown"`, otherwise
the pipeline runs and an empty result becomes `"Unknown"`. -/
def clean_text : Option String → String
  | none => "Unknown"
  | some s =>
    let t := cleanCore s.toList
    if t.isEmpty then "Unknown" else String.mk t

/-! ### A small regex engine for the column patterns

`COLUMN_PATTERNS` values are compiled by hand into this AST.  Matching
is by Brzozowski derivatives.  `re.search(p, t, re.IGNORECASE)` becomes
`searchCI p t.toList`: the text is ASCII-lowered (the patterns contain
only ASCII letters) and each top-level alternative carries its own
`^`/`$` anchor flags, exactly as they are written in the source
patterns.  (The Python `$` also accepts a position just before a final
newline; the matcher only sees `clean_text` output, which contains no
newline, so end-of-string is faithful.) -/

inductive Rx where
  | emp : Rx
  | eps : Rx
  | cls : (Char → Bool) → Rx
  | cat : Rx → Rx → Rx
  | alt : Rx → Rx → Rx
  | star : Rx → Rx

def nullable : Rx → Bool
  | .emp => false
  | .eps => true
  | .cls _ => false
  | .cat a b => nullable a && nullable b
  | .alt a b => nullable a || nullable b
  | .star _ => true

/-- Smart constructor keeping derivatives small. -/
def mkCat : Rx → Rx → Rx
  | .emp, _ => .emp
  | _, .emp => .emp
  | .eps, b => b
  | a, .eps => a
  | a, b => .cat a b

/-- Smart constructor keeping derivatives small. -/
def mkAlt : Rx → Rx → Rx
  | .emp, b => b
  | a, .emp => a
  | a, b => .alt a b

def deriv : Rx → Char → Rx
  | .emp, _ => .emp
  | .eps, _ => .emp
  | .cls p, c => if p c then .eps else .emp
  | .cat a b, c =>
    if nullable a then mkAlt (mkCat (deriv a c) b) (deriv b c)
    else mkCat (deriv a c) b
  | .alt a b, c => mkAlt (deriv a c) (deriv b c)
  | .star r, c => mkCat (deriv r c) (.star r)

/-- Does `r` match the whole string? -/
def fullMatch : Rx → List Char → Bool
  | r, [] => nullable r
  | r, c :: cs => fullMatch (deriv r c) cs

/-- Does `r` match some prefix of the string? -/
def matchAtStart : Rx → List Char → Bool
  | r, [] => nullable r
  | r, c :: cs => nullable r || matchAtStart (deriv r c) cs

/-- One top-level alternative of a pattern, with its anchor flags:
`bol` when the alternative is written with a leading `^`, `eol` for a
trailing `$`. -/
structure RxAlt where
  bol : Bool
  rx : Rx
  eol : Bool

/-- Does this alternative match somewhere in `s` (the semantics of
`re.search` for one alternative)? -/
def searchAlt (a : RxAlt) (s : List Char) : Bool :=
  if a.bol then
    if a.eol then fullMatch a.rx s else matchAtStart a.rx s
  else
    if a.eol then s.tails.any (fun t => fullMatch a.rx t)
    else s.tails.any (fun t => matchAtStart a.rx t)

def search (p : List RxAlt) (s : List Char) : Bool :=
  p.any (fun a => searchAlt a s)

/-- `re.search(pattern, text, re.IGNORECASE)` for the ASCII-only column
patterns: lower the text, then search. -/
def searchCI (p : List RxAlt) (s : List Char) : Bool :=
  search p (s.map asciiLower)

/-! Pattern construction helpers.  Literals are written lowercase; the
text is lowered by `searchCI`. -/

def chr (c : Char) : Rx := Rx.cls (fun d => d = c)

def strRx (s : String) : Rx := s.toList.foldr (fun c r => Rx.cat (chr c) r) Rx.eps

def opt (r : Rx) : Rx := Rx.alt r Rx.eps

def wsStar : Rx := Rx.star (Rx.cls isPySpace)

/-- `.*` — in Python, `.` matches anything but a newline. -/
def dotStar : Rx := Rx.star (Rx.cls (fun c => !(c = '\n')))

def cats (l : List Rx) : Rx := l.foldr Rx.cat Rx.eps

/-- Unanchored alternative. -/
def ua (r : Rx) : RxAlt := ⟨false, r, false⟩

/-- Fully anchored alternative (`^...$`). -/
def fa (r : Rx) : RxAlt := ⟨true, r, true⟩

/-- End-anchored alternative (`...$`). -/
def ea (r : Rx) : RxAlt := ⟨false, r, true⟩

/-! ### `COLUMN_PATTERNS` (lines 39–87 of the source)

Each rule is the list of top-level alternatives of one Python pattern,
paired with its replacement label, in dict insertion order. -/

def occupationRules : List (List RxAlt × String) := [
  -- r1 `(?i)trade[r]?\s*$`
  ([ea (cats [strRx "trade", opt (chr 'r'), wsStar])], "Trader"),
  -- r2 `(?i)farm(er)?s?\s*$`
  ([ea (cats [strRx "farm", opt (strRx "er"), opt (chr 's'), wsStar])], "Farmer"),
  -- r3 `(?i)seam?stress|s[ei]amstress`
  ([ua (cats [strRx "sea", opt (chr 'm'), strRx "stress"]),
    ua (cats [chr 's', Rx.cls (fun c => c = 'e' || c = 'i'), strRx "amstress"])],
   "Seamstress"),
  -- r4 `(?i)hair\s*dress?[e]?r|hair.*style`
  ([ua (cats [strRx "hair", wsStar, strRx "dres", opt (chr 's'), opt (chr 'e'), chr 'r']),
    ua (cats [strRx "hair", dotStar, strRx "style"])], "Hairdresser"),
  -- r5 `(?i)teach(er)?\s*$`
  ([ea (cats [strRx "teach", opt (strRx "er"), wsStar])], "Teacher"),
  -- r6 `(?i)driv(er)?\s*$`
  ([ea (cats [strRx "driv", opt (strRx "er"), wsStar])], "Driver"),
  -- r7 `(?i)okada\s*(rider)?`
  ([ua (cats [strRx "okada", wsStar, opt (strRx "rider")])], "Okada Rider"),
  -- r8 `(?i)unemployed?`
  ([ua (cats [strRx "unemploye", opt (chr 'd')])], "Unemployed")]

def partyNoneAlts : List RxAlt :=
  -- `(?i)none|unknown|cant\s*tell`
  [ua (strRx "none"), ua (strRx "unknown"),
   ua (cats [strRx "cant", wsStar, strRx "tell"])]

def partyRules : List (List RxAlt × String) := [
  -- r1 `(?i)^ndc\s*$|^n$`
  ([fa (cats [strRx "ndc", wsStar]), fa (chr 'n')], "NDC"),
  -- r2 `(?i)^npp\s*$`
  ([fa (cats [strRx "npp", wsStar])], "NPP"),
  -- r3 `(?i)^cpp\s*$`
  ([fa (cats [strRx "cpp", wsStar])], "CPP"),
  -- r4 `(?i)new\s*force`
  ([ua (cats [strRx "new", wsStar, strRx "force"])], "New Force"),
  -- r5 `(?i)none|unknown|cant\s*tell`
  (partyNoneAlts, "Not Specified")]

def votedRules : List (List RxAlt × String) := [
  -- r1 `(?i)^y(es)?$`
  ([fa (cats [chr 'y', opt (strRx "es")])], "Yes"),
  -- r2 `(?i)^n(o)?$`
  ([fa (cats [chr 'n', opt (chr 'o')])], "No")]

def noResponseAlts : List RxAlt :=
  -- `(?i)^$|none|no\s*response`
  [fa Rx.eps, ua (strRx "none"), ua (cats [strRx "no", wsStar, strRx "response"])]

def reasonRules : List (List RxAlt × String) := [
  -- r1 `(?i)wasn'?t?\s*interested|no\s*interest`
  ([ua (cats [strRx "wasn", opt (chr '\x27'), opt (chr 't'), wsStar, strRx "interested"]),
    ua (cats [strRx "no", wsStar, strRx "interest"])], "Not Interested"),
  -- r2 `(?i)no\s*transport|transportation`
  ([ua (cats [strRx "no", wsStar, strRx "transport"]), ua (strRx "transportation")],
   "No Transportation"),
  -- r3 `(?i)missing\s*id|no\s*id|lost\s*id`
  ([ua (cats [strRx "missing", wsStar, strRx "id"]),
    ua (cats [strRx "no", wsStar, strRx "id"]),
    ua (cats [strRx "lost", wsStar, strRx "id"])], "ID Issues"),
  -- r4 `(?i)sick|illness|health`
  ([ua (strRx "sick"), ua (strRx "illness"), ua (strRx "health")], "Health Issues"),
  -- r5 `(?i)travel|busy|work`
  ([ua (strRx "travel"), ua (strRx "busy"), ua (strRx "work")], "Not Available"),
  -- r6 `(?i)^$|none|no\s*response`
  (noResponseAlts, "No Response")]

def knowRules : List (List RxAlt × String) := [
  -- r1 `(?i)yes.*knew.*about.*them`
  ([ua (cats [strRx "yes", dotStar, strRx "knew", dotStar, strRx "about",
              dotStar, strRx "them"])], "Yes, Knew Projects"),
  -- r2 `(?i)heard.*but.*not.*helpful`
  ([ua (cats [strRx "heard", dotStar, strRx "but", dotStar, strRx "not",
              dotStar, strRx "helpful"])], "Heard But Not Helpful"),
  -- r3 `(?i)did.*not.*know|don'?t?\s*know`
  ([ua (cats [strRx "did", dotStar, strRx "not", dotStar, strRx "know"]),
    ua (cats [strRx "don", opt (chr '\x27'), opt (chr 't'), wsStar, strRx "know"])],
   "Did Not Know"),
  -- r4 `(?i)^$|none|no\s*response`
  (noResponseAlts, "No Response")]

def solvedRules : List (List RxAlt × String) := [
  -- r1 `(?i)yes.*solved.*major.*issue`
  ([ua (cats [strRx "yes", dotStar, strRx "solved", dotStar, strRx "major",
              dotStar, strRx "issue"])], "Yes, Solved Major Issues"),
  -- r2 `(?i)tried.*but.*wasn'?t?\s*enough|partial`
  ([ua (cats [strRx "tried", dotStar, strRx "but", dotStar, strRx "wasn",
              opt (chr '\x27'), opt (chr 't'), wsStar, strRx "enough"]),
    ua (strRx "partial")], "Partial Solution"),
  -- r3 `(?i)no.*solution|didn'?t?\s*solve`
  ([ua (cats [strRx "no", dotStar, strRx "solution"]),
    ua (cats [strRx "didn", opt (chr '\x27'), opt (chr 't'), wsStar, strRx "solve"])],
   "No Solution"),
  -- r4 `(?i)^$|none|no\s*response`
  (noResponseAlts, "No Response")]

def fairRules : List (List RxAlt × String) := [
  -- r1 `(?i)^y(es)?$|fair`
  ([fa (cats [chr 'y', opt (strRx "es")]), ua (strRx "fair")], "Yes"),
  -- r2 `(?i)^n(o)?$|unfair`
  ([fa (cats [chr 'n', opt (chr 'o')]), ua (strRx "unfair")], "No"),
  -- r3 `(?i)don'?t?\s*know|unsure`
  ([ua (cats [strRx "don", opt (chr '\x27'), opt (chr 't'), wsStar, strRx "know"]),
    ua (strRx "unsure")], "Don\x27t Know"),
  -- r4 `(?i)^$|none|no\s*response`
  (noResponseAlts, "No Response")]

def COLUMN_PATTERNS : List (String × List (List RxAlt × String)) := [
  ("Occupation", occupationRules),
  ("Party_Belong", partyRules),
  ("Voted_Last_Election", votedRules),
  ("Reason_Not_Voted", reasonRules),
  ("Know_Projects", knowRules),
  ("Solved_Community_Problems", solvedRules),
  ("Fair_Election_Results", fairRules)]

/-! ### `match_pattern` and the two standardization methods -/

/-- The loop of `match_pattern`: first rule whose pattern matches wins;
no match falls back to `"Other"`. -/
def firstMatch : List (List RxAlt × String) → List Char → String
  | [], _ => "Other"
  | (p, lab) :: rest, t => if searchCI p t then lab else firstMatch rest t

/-- `match_pattern` (the inner function of
`standardize_column_with_search`): repair the raw cell with
`clean_text`, then try the rules of the column in order. -/
def match_pattern (rules : List (List RxAlt × String)) (cell : Option String) : String :=
  firstMatch rules (clean_text cell).toList

/-- A data frame: named columns of possibly-missing cells. -/
structure Frame where
  cols : List (String × List (Option String))
deriving DecidableEq

/-- The per-entry effect of assigning
`self.data[column] = self.data[column].apply(match_pattern)`:
columns with the given name are rewritten, all others untouched. -/
def entryStep (rules : List (List RxAlt × String)) (column : String)
    (nc : String × List (Option String)) : String × List (Option String) :=
  if nc.1 = column then (nc.1, nc.2.map (fun cell => some (match_pattern rules cell)))
  else nc

def standardize_column_with_search (column : String) (df : Frame) : Frame :=
  match COLUMN_PATTERNS.lookup column with
  | none => df
  | some rules => ⟨df.cols.map (entryStep rules column)⟩

/-- `clean_data` iterates the governed columns in table order; a column
absent from the frame is skipped (the per-entry map does nothing). -/
def clean_data_frame (df : Frame) : Frame :=
  (COLUMN_PATTERNS.map Prod.fst).foldl
    (fun d col => standardize_column_with_search col d) df

def clean_data : Option Frame → Bool × Option Frame
  | none => (false, none)
  | some df => (true, some (clean_data_frame df))

/-! ### `load_data` -/

inductive Encoding where
  | utf8 : Encoding
  | latin1 : Encoding
  | cp1252 : Encoding
deriving DecidableEq

/-- Outcome of one `pd.read_csv(file, encoding=e)` attempt: a parsed
frame, a `UnicodeDecodeError`, or any other exception. -/
inductive ParseOutcome where
  | ok : Frame → ParseOutcome
  | decodeErr : ParseOutcome
  | otherErr : ParseOutcome
deriving DecidableEq

/-- `encodings = ['utf-8', 'latin1', 'cp1252']` of the source. -/
def encodingsList : List Encoding := [.utf8, .latin1, .cp1252]

/-- The loop of `load_data`: a successful read returns `True` with the
data; a `UnicodeDecodeError` tries the next encoding; any other
exception returns `False`; an exhausted list returns `False`. -/
def loadAux (parse : Encoding → ParseOutcome) : List Encoding → Bool × Option Frame
  | [] => (false, none)
  | e :: rest =>
    match parse e with
    | .ok df => (true, some df)
    | .decodeErr => loadAux parse rest
    | .otherErr => (false, none)

def load_data (parse : Encoding → ParseOutcome) : Bool × Option Frame :=
  loadAux parse encodingsList

/-- Number of records of a frame (`len(self.data)`); the frame is
rectangular in every use here. -/
def nRows (df : Frame) : Nat :=
  match df.cols with
  | [] => 0
  | c :: _ => c.2.length

/-! ### The legacy bulk method `standardize_column`

`standardize_column` first applies `clean_text` to the column, then for
each rule runs `Series.replace(to_replace=pattern, value=label,
regex=True)`, which substitutes every occurrence of the pattern inside
each cell string — and leaves a cell unchanged when the pattern does
not occur (no `"Other"` fallback).  The substitution below scans left
to right; at a position the top-level alternatives are tried in
declaration order and the chosen alternative takes its longest match
there (for the patterns and inputs evaluated in the theorems the
distinction from the exact backtracking extent never arises — in
particular a no-match input is returned unchanged, which is the fact
the theorems use). -/

/-- Longest prefix of `s` matched by `r`, matching case-insensitively. -/
def longestPreCI : Rx → List Char → Option Nat
  | r, [] => if nullable r then some 0 else none
  | r, c :: cs =>
    match longestPreCI (deriv r (asciiLower c)) cs with
    | some n => some (n + 1)
    | none => if nullable r then some 0 else none

/-- Length matched by one alternative at this position (`atStart` tracks
position 0 for `^`; a `$`-anchored alternative must reach the end). -/
def altMatchLen (a : RxAlt) (atStart : Bool) (s : List Char) : Option Nat :=
  if a.bol && !atStart then none
  else if a.eol then
    if fullMatch a.rx (s.map asciiLower) then some s.length else none
  else longestPreCI a.rx s

def firstAltLen (p : List RxAlt) (atStart : Bool) (s : List Char) : Option Nat :=
  match p with
  | [] => none
  | a :: rest =>
    match altMatchLen a atStart s with
    | some n => some n
    | none => firstAltLen rest atStart s

/-- `re.sub` scan: at each position substitute the first alternative
that matches (a zero-width match inserts and advances one character,
as in Python). -/
def subScanF (p : List RxAlt) (rep : List Char) : Nat → Bool → List Char → List Char
  | 0, _, s => s
  | _ + 1, atStart, [] =>
    match firstAltLen p atStart [] with
    | some _ => rep
    | none => []
  | f + 1, atStart, c :: cs =>
    match firstAltLen p atStart (c :: cs) with
    | some 0 => rep ++ c :: subScanF p rep f false cs
    | some (n + 1) => rep ++ subScanF p rep f false ((c :: cs).drop (n + 1))
    | none => c :: subScanF p rep f false cs

def subPattern (p : List RxAlt) (rep s : List Char) : List Char :=
  subScanF p rep s.length true s

/-- The value-level effect of `standardize_column` on one cell:
`clean_text`, then the regex substitutions of the rules in order. -/
def bulkValue (rules : List (List RxAlt × String)) (cell : Option String) : String :=
  String.mk (rules.foldl (fun t pr => subPattern pr.1 pr.2.toList t)
    (clean_text cell).toList)

def standardize_column (column : String) (df : Frame) : Frame :=
  match COLUMN_PATTERNS.lookup column with
  | none => df
  | some rules =>
    ⟨df.cols.map (fun nc =>
      if nc.1 = column then (nc.1, nc.2.map (fun cell => some (bulkValue rules cell)))
      else nc)⟩

/-! ## Theorems for the specification claims -/

theorem firstMatch_mem (rules : List (List RxAlt × String)) (t : List Char) :
    firstMatch rules t = "Other" ∨ firstMatch rules t ∈ rules.map Prod.snd := by
  induction rules with
  | nil => left; rfl
  | cons hd tl ih =>
    obtain ⟨p, lab⟩ := hd
    by_cases h : searchCI p t
    · right; simp [firstMatch, h]
    · rcases ih with h1 | h1
      · left; simpa [firstMatch, h] using h1
      · right; simp [firstMatch, h]; right; simpa using h1

/-- C1: for every governed column of `COLUMN_PATTERNS` and every cell
value, `match_pattern` returns a member of the canonical label set of
the column (the values of its pattern table) or the fallback
`"Other"`; no raw or repaired free text is returned. -/
theorem match_pattern_closed_vocabulary :
    ∀ col rules, COLUMN_PATTERNS.lookup col = some rules →
      ∀ cell : Option String,
        match_pattern rules cell = "Other" ∨
          match_pattern rules cell ∈ rules.map Prod.snd := by
  intro col rules _ cell
  exact firstMatch_mem rules (clean_text cell).toList

theorem match_pattern_closed_vocabulary_witness :
    match_pattern occupationRules (some "gibberish") = "Other" ∨
      match_pattern occupationRules (some "gibberish") ∈
        occupationRules.map Prod.snd :=
  match_pattern_closed_vocabulary "Occupation" occupationRules rfl
    (some "gibberish")

/-- The canonical labels whose round trip through the matcher does NOT
return the label itself (each is sent to `"Other"`: no pattern of its
own column matches the label text). -/
def roundTripExceptions : List (String × String) :=
  [("Party_Belong", "Not Specified"),
   ("Reason_Not_Voted", "Not Interested"),
   ("Reason_Not_Voted", "ID Issues"),
   ("Reason_Not_Voted", "Not Available"),
   ("Know_Projects", "Yes, Knew Projects")]

/-- C2 (counterexample): the canonical Party_Belong label
`"Not Specified"` is not a fixed point of the matcher — cleaning an
already-cleaned value changes it to `"Other"`. -/
theorem canonical_label_not_fixed :
    COLUMN_PATTERNS.lookup "Party_Belong" = some partyRules ∧
    "Not Specified" ∈ partyRules.map Prod.snd ∧
    match_pattern partyRules (some "Not Specified") = "Other" :=
  ⟨rfl, by decide, by decide⟩

/-- C2 (amended): a canonical label maps to itself under its own
column matcher, except for the five labels of `roundTripExceptions`,
which map to `"Other"`. -/
theorem canonical_label_round_trip :
    ∀ cr ∈ COLUMN_PATTERNS, ∀ pr ∈ cr.2,
      match_pattern cr.2 (some pr.2) =
        (if (cr.1, pr.2) ∈ roundTripExceptions then "Other" else pr.2) := by
  decide

theorem canonical_label_round_trip_witness :
    match_pattern occupationRules (some "Trader") = "Trader" := by
  have h := canonical_label_round_trip ("Occupation", occupationRules)
    (List.Mem.head _) (([ea (cats [strRx "trade", opt (chr 'r'), wsStar])],
      "Trader")) (List.Mem.head _)
  rw [if_neg (by decide)] at h
  exact h

/-- C4: rules are evaluated in table order with first-match
short-circuit: whenever a rule pattern matches the repaired text and no
earlier rule pattern does, that rule supplies the label — so of two
matching rules the earlier-declared one wins. -/
theorem first_match_rule_order :
    ∀ (rules pre post : List (List RxAlt × String)) (p : List RxAlt)
      (lab : String) (cell : Option String),
      rules = pre ++ (p, lab) :: post →
      (∀ q ∈ pre, searchCI q.1 (clean_text cell).toList = false) →
      searchCI p (clean_text cell).toList = true →
      match_pattern rules cell = lab := by
  intro rules pre post p lab cell hr hpre hp
  subst hr
  unfold match_pattern
  simp only [String.toList] at hp hpre
  induction pre with
  | nil => simp [firstMatch, String.toList, hp]
  | cons q qs ih =>
    obtain ⟨qp, ql⟩ := q
    have hq := hpre (qp, ql) (by simp)
    simpa [firstMatch, String.toList, hq] using
      ih (fun r hrm => hpre r (by simp [hrm]))

theorem first_match_rule_order_witness :
    match_pattern partyRules (some "new force none") = "New Force" ∧
      searchCI partyNoneAlts (clean_text (some "new force none")).toList = true := by
  constructor
  · exact first_match_rule_order partyRules (partyRules.take 3)
      [(partyNoneAlts, "Not Specified")]
      [ua (cats [strRx "new", wsStar, strRx "force"])] "New Force"
      (some "new force none") rfl (by decide) (by decide)
  · decide

/-- C5: `clean_text` is total and never returns the empty string;
missing (NaN) input yields exactly `"Unknown"`, and any input whose
repaired form is empty also yields `"Unknown"`. -/
theorem clean_text_total :
    clean_text none = "Unknown" ∧
    (∀ cell : Option String, clean_text cell ≠ "") ∧
    (∀ s : String, cleanCore s.toList = [] → clean_text (some s) = "Unknown") := by
  refine ⟨rfl, ?_, ?_⟩
  · intro cell
    cases cell with
    | none => decide
    | some s =>
      unfold clean_text
      by_cases h : cleanCore s.toList = []
      · simp only [String.toList] at h
        simp [h]
      · simp only [String.toList] at h
        simp only [List.isEmpty_eq_true, String.toList, h, if_false]
        intro hEq
        exact h (by simpa using congrArg String.data hEq)
  · intro s h
    simp only [String.toList] at h
    unfold clean_text
    simp [String.toList, h]

theorem clean_text_total_witness :
    clean_text (some ",") = "Unknown" :=
  clean_text_total.2.2 "," (by decide)

/-- C6: `load_data` tries UTF-8, then Latin-1, then Windows-1252, in
that order; the first encoding that parses wins and `True` is returned
with the data; if every encoding raises a decode error the function
returns `False` (a return value, not an exception). -/
theorem load_data_encoding_fallback :
    encodingsList = [Encoding.utf8, Encoding.latin1, Encoding.cp1252] ∧
    (∀ parse df, parse Encoding.utf8 = ParseOutcome.ok df →
      load_data parse = (true, some df)) ∧
    (∀ parse df, parse Encoding.utf8 = ParseOutcome.decodeErr →
      parse Encoding.latin1 = ParseOutcome.ok df →
      load_data parse = (true, some df)) ∧
    (∀ parse df, parse Encoding.utf8 = ParseOutcome.decodeErr →
      parse Encoding.latin1 = ParseOutcome.decodeErr →
      parse Encoding.cp1252 = ParseOutcome.ok df →
      load_data parse = (true, some df)) ∧
    (∀ parse, parse Encoding.utf8 = ParseOutcome.decodeErr →
      parse Encoding.latin1 = ParseOutcome.decodeErr →
      parse Encoding.cp1252 = ParseOutcome.decodeErr →
      load_data parse = (false, none)) := by
  refine ⟨rfl, ?_, ?_, ?_, ?_⟩
  · intro parse df h1
    simp [load_data, loadAux, encodingsList, h1]
  · intro parse df h1 h2
    simp [load_data, loadAux, encodingsList, h1, h2]
  · intro parse df h1 h2 h3
    simp [load_data, loadAux, encodingsList, h1, h2, h3]
  · intro parse h1 h2 h3
    simp [load_data, loadAux, encodingsList, h1, h2, h3]

/-- A one-column, one-row sample frame for witnesses. -/
def demoFrame : Frame := ⟨[("Occupation", [some "farmer"])]⟩

/-- A file that raises a decode error under UTF-8 but parses under
Latin-1. -/
def parseOnlyLatin1 : Encoding → ParseOutcome
  | Encoding.utf8 => ParseOutcome.decodeErr
  | Encoding.latin1 => ParseOutcome.ok demoFrame
  | Encoding.cp1252 => ParseOutcome.decodeErr

theorem load_data_encoding_fallback_witness :
    load_data parseOnlyLatin1 = (true, some demoFrame) :=
  load_data_encoding_fallback.2.2.1 parseOnlyLatin1 demoFrame rfl rfl

/-- A frame with the governed headers but zero records. -/
def emptyFrame : Frame := ⟨[("Occupation", []), ("Party_Belong", [])]⟩

/-- A file that parses (under the first encoding) to a dataset with
zero records. -/
def parseEmptyOk : Encoding → ParseOutcome := fun _ => ParseOutcome.ok emptyFrame

/-- C7 (counterexample): `load_data` returns success (`True`) on a
dataset with zero records — there is no emptiness check
(`validate_data` only warns about missing columns). -/
theorem load_data_accepts_empty_dataset :
    load_data parseEmptyOk = (true, some emptyFrame) ∧ nRows emptyFrame = 0 :=
  ⟨rfl, rfl⟩

/-- C7 (amended): `load_data` succeeds whenever some encoding parses,
with no non-emptiness requirement: a parsed dataset with zero records
still yields a `True` return. -/
theorem load_data_no_emptiness_check :
    ∀ parse df, parse Encoding.utf8 = ParseOutcome.ok df → nRows df = 0 →
      load_data parse = (true, some df) := by
  intro parse df h _
  simp [load_data, loadAux, encodingsList, h]

theorem load_data_no_emptiness_check_witness :
    load_data parseEmptyOk = (true, some emptyFrame) :=
  load_data_no_emptiness_check parseEmptyOk emptyFrame rfl rfl

/-- C9: the bulk regex-replace method `standardize_column` and the
per-value first-match method `standardize_column_with_search` diverge:
on the Occupation value `"xyz"` (no pattern matches) the bulk method
leaves the value unchanged while the search method produces
`"Other"`. -/
theorem bulk_vs_search_divergence :
    COLUMN_PATTERNS.lookup "Occupation" = some occupationRules ∧
    standardize_column "Occupation" ⟨[("Occupation", [some "xyz"])]⟩ =
      ⟨[("Occupation", [some "xyz"])]⟩ ∧
    standardize_column_with_search "Occupation" ⟨[("Occupation", [some "xyz"])]⟩ =
      ⟨[("Occupation", [some "Other"])]⟩ :=
  ⟨rfl, by decide, by decide⟩

/-- C10: a missing Party_Belong value is repaired to the sentinel
`"Unknown"`, whose literal text matches the `none|unknown|cant tell`
rule, so the matcher returns `"Not Specified"` (not `"Other"`); for
Voted_Last_Election no rule matches `"Unknown"` and a missing value
becomes `"Other"`. -/
theorem missing_party_value_not_specified :
    match_pattern partyRules none = "Not Specified" ∧
    clean_text none = "Unknown" ∧
    searchCI partyNoneAlts "Unknown".toList = true ∧
    (partyRules.take 4).all (fun q => !searchCI q.1 "Unknown".toList) = true ∧
    match_pattern votedRules none = "Other" := by
  decide

/-! ### Frame-level behaviour of `clean_data` (claim C8) -/

/-- The effect of one `standardize_column_with_search` call on one
column entry, with the lookup folded in. -/
def entryStepL (col : String) (nc : String × List (Option String)) :
    String × List (Option String) :=
  match COLUMN_PATTERNS.lookup col with
  | none => nc
  | some rules => entryStep rules col nc

theorem standardize_cols_eq (col : String) (df : Frame) :
    standardize_column_with_search col df = ⟨df.cols.map (entryStepL col)⟩ := by
  unfold standardize_column_with_search entryStepL
  cases h : COLUMN_PATTERNS.lookup col with
  | none => cases df; simp
  | some rules => rfl

theorem foldl_standardize (ks : List String) (df : Frame) :
    ks.foldl (fun d col => standardize_column_with_search col d) df =
      ⟨df.cols.map (fun nc => ks.foldl (fun x c => entryStepL c x) nc)⟩ := by
  induction ks generalizing df with
  | nil => cases df; simp
  | cons k ks ih =>
    simp only [List.foldl_cons]
    rw [standardize_cols_eq, ih]
    simp [List.map_map, Function.comp]

theorem entryStepL_ne {c : String} {nc : String × List (Option String)}
    (h : nc.1 ≠ c) : entryStepL c nc = nc := by
  unfold entryStepL
  cases hl : COLUMN_PATTERNS.lookup c with
  | none => rfl
  | some rules => simp [entryStep, h]

theorem entryStepL_ungoverned {c : String} {nc : String × List (Option String)}
    (h : COLUMN_PATTERNS.lookup nc.1 = none) : entryStepL c nc = nc := by
  unfold entryStepL
  cases hl : COLUMN_PATTERNS.lookup c with
  | none => rfl
  | some rules =>
    unfold entryStep
    by_cases hc : nc.1 = c
    · rw [hc, hl] at h; cases h
    · simp [hc]

theorem foldl_entry_ungoverned (ks : List String)
    {nc : String × List (Option String)}
    (h : COLUMN_PATTERNS.lookup nc.1 = none) :
    ks.foldl (fun x c => entryStepL c x) nc = nc := by
  induction ks with
  | nil => rfl
  | cons k ks ih => simp only [List.foldl_cons, entryStepL_ungoverned h, ih]

theorem foldl_entry_notmem (ks : List String)
    {nc : String × List (Option String)} (h : nc.1 ∉ ks) :
    ks.foldl (fun x c => entryStepL c x) nc = nc := by
  induction ks with
  | nil => rfl
  | cons k ks ih =>
    have hk : nc.1 ≠ k := fun he => h (he ▸ List.Mem.head _)
    have ht : nc.1 ∉ ks := fun hm => h (List.Mem.tail _ hm)
    simp only [List.foldl_cons, entryStepL_ne hk, ih ht]

theorem lookup_some_mem {l : List (String × List (List RxAlt × String))}
    {a : String} {b : List (List RxAlt × String)}
    (h : l.lookup a = some b) : a ∈ l.map Prod.fst := by
  induction l with
  | nil => simp [List.lookup] at h
  | cons kv tl ih =>
    obtain ⟨k, v⟩ := kv
    by_cases hk : a == k
    · simp [eq_of_beq hk]
    · simp only [List.lookup, hk] at h
      simpa using Or.inr (ih h)

theorem foldl_entry_governed (ks : List String)
    {nc : String × List (Option String)} {rules : List (List RxAlt × String)}
    (hnd : ks.Nodup) (hmem : nc.1 ∈ ks)
    (hl : COLUMN_PATTERNS.lookup nc.1 = some rules) :
    ks.foldl (fun x c => entryStepL c x) nc =
      (nc.1, nc.2.map (fun cell => some (match_pattern rules cell))) := by
  induction ks with
  | nil => cases hmem
  | cons k tl ih =>
    rw [List.nodup_cons] at hnd
    by_cases hk : nc.1 = k
    · subst hk
      have hstep : entryStepL nc.1 nc =
          (nc.1, nc.2.map (fun cell => some (match_pattern rules cell))) := by
        unfold entryStepL
        rw [hl]
        simp [entryStep]
      rw [List.foldl_cons, hstep]
      exact foldl_entry_notmem tl hnd.1
    · have ht : nc.1 ∈ tl := by
        rcases List.mem_cons.mp hmem with he | ht
        · exact absurd he hk
        · exact ht
      rw [List.foldl_cons, entryStepL_ne hk]
      exact ih hnd.2 ht

theorem keys_nodup : (COLUMN_PATTERNS.map Prod.fst).Nodup := by decide

/-- C8: `clean_data` succeeds on loaded data, preserves the column
names and every column length (hence the row count), leaves every
column not governed by `COLUMN_PATTERNS` unchanged, and rewrites every
cell of every governed column through `match_pattern`, skipping
none. -/
theorem clean_data_frame_effect :
    ∀ df : Frame,
      clean_data (some df) = (true, some (clean_data_frame df)) ∧
      (clean_data_frame df).cols.map Prod.fst = df.cols.map Prod.fst ∧
      (clean_data_frame df).cols.map (fun nc => nc.2.length) =
        df.cols.map (fun nc => nc.2.length) ∧
      List.Forall₂ (fun old new =>
          new.1 = old.1 ∧
          (COLUMN_PATTERNS.lookup old.1 = none → new.2 = old.2) ∧
          (∀ rules, COLUMN_PATTERNS.lookup old.1 = some rules →
            new.2 = old.2.map (fun cell => some (match_pattern rules cell))))
        df.cols (clean_data_frame df).cols := by
  intro df
  have hmap : clean_data_frame df =
      ⟨df.cols.map (fun nc =>
        (COLUMN_PATTERNS.map Prod.fst).foldl (fun x c => entryStepL c x) nc)⟩ := by
    unfold clean_data_frame
    exact foldl_standardize _ df
  have hF : ∀ nc : String × List (Option String),
      ((COLUMN_PATTERNS.map Prod.fst).foldl (fun x c => entryStepL c x) nc).1 =
        nc.1 ∧
      (COLUMN_PATTERNS.lookup nc.1 = none →
        ((COLUMN_PATTERNS.map Prod.fst).foldl (fun x c => entryStepL c x) nc).2 =
          nc.2) ∧
      (∀ rules, COLUMN_PATTERNS.lookup nc.1 = some rules →
        ((COLUMN_PATTERNS.map Prod.fst).foldl (fun x c => entryStepL c x) nc).2 =
          nc.2.map (fun cell => some (match_pattern rules cell))) := by
    intro nc
    cases h : COLUMN_PATTERNS.lookup nc.1 with
    | none =>
      rw [foldl_entry_ungoverned _ h]
      refine ⟨rfl, fun _ => rfl, ?_⟩
      intro rules hr
      cases hr
    | some rules =>
      rw [foldl_entry_governed _ keys_nodup (lookup_some_mem h) h]
      refine ⟨rfl, ?_, ?_⟩
      · intro hn
        cases hn
      · intro rules2 hr2
        cases hr2
        rfl
  refine ⟨rfl, ?_, ?_, ?_⟩
  · rw [hmap]
    simp only [List.map_map]
    exact List.map_congr_left fun nc _ => (hF nc).1
  · rw [hmap]
    simp only [List.map_map]
    refine List.map_congr_left fun nc _ => ?_
    rcases hF nc with ⟨-, hnone, hsome⟩
    cases h : COLUMN_PATTERNS.lookup nc.1 with
    | none => simp [Function.comp, hnone h]
    | some rules => simp [Function.comp, hsome rules h]
  · rw [hmap]
    rw [List.forall₂_map_right_iff]
    refine List.forall₂_same.mpr fun nc _ => ?_
    rcases hF nc with ⟨h1, h2, h3⟩
    exact ⟨h1, h2, h3⟩

theorem clean_data_frame_effect_witness :
    (clean_data_frame demoFrame).cols.map Prod.fst =
      demoFrame.cols.map Prod.fst :=
  (clean_data_frame_effect demoFrame).2.1

/-! ### Idempotence of `clean_text` on ASCII input (claim C3)

`clean_text` is NOT idempotent in general (counterexample below: the
encoding-artifact pattern `Ã\s*\w` can be re-enabled when the
special-character removal pulls a word character next to a surviving
`Ã`).  It is idempotent on ASCII input; the development below proves
that by showing the output of `cleanCore` is canonical (keep-set
characters only, all whitespace a single plain space, no double
spaces, no boundary spaces) and that every pipeline stage is the
identity on canonical ASCII strings. -/

def Ascii (l : List Char) : Prop := ∀ c ∈ l, c.toNat < 128

instance (l : List Char) : Decidable (Ascii l) :=
  inferInstanceAs (Decidable (∀ c ∈ l, c.toNat < 128))

/-- No two adjacent whitespace characters. -/
def noWsPair (a b : Char) : Prop := ¬(isPySpace a = true ∧ isPySpace b = true)

theorem ascii_tail {c : Char} {cs : List Char} (h : Ascii (c :: cs)) : Ascii cs :=
  fun x hx => h x (List.Mem.tail _ hx)

theorem mem_of_isPrefixOf {p l : List Char} (h : p.isPrefixOf l) :
    ∀ c ∈ p, c ∈ l := by
  intro c hc
  obtain ⟨t, ht⟩ := List.isPrefixOf_iff_prefix.mp h
  rw [← ht]
  exact List.mem_append_left _ hc

theorem replaceAllF_id {p r : List Char} (c0 : Char) (hc0 : c0 ∈ p)
    (h128 : 128 ≤ c0.toNat) :
    ∀ (f : Nat) (l : List Char), Ascii l → replaceAllF p r f l = l := by
  intro f
  induction f with
  | zero => intro l _; rfl
  | succ f ih =>
    intro l hA
    cases l with
    | nil => rfl
    | cons c cs =>
      have hnp : ¬(p ≠ [] ∧ p.isPrefixOf (c :: cs)) := by
        rintro ⟨-, hpre⟩
        have := hA c0 (mem_of_isPrefixOf hpre c0 hc0)
        omega
      simp only [replaceAllF, if_neg hnp]
      rw [ih cs (ascii_tail hA)]

theorem replaceAll_id {p r : List Char} (c0 : Char) (hc0 : c0 ∈ p)
    (h128 : 128 ≤ c0.toNat) {l : List Char} (hA : Ascii l) :
    replaceAll p r l = l :=
  replaceAllF_id c0 hc0 h128 l.length l hA

theorem litReplaces_id {l : List Char} (hA : Ascii l) : litReplaces l = l := by
  show replaceAll ['Ã', '\u0082', 'Â'] ['\x27']
    (replaceAll ['Ã', '\u0082', 'Â', '\u0092'] ['\x27']
      (replaceAll ['â', '€'] ['"']
        (replaceAll ['â', '€', 'œ'] ['"']
          (replaceAll ['â', '€', '™'] ['\x27']
            (replaceAll ['Â', 't'] ['\x27', 't']
              (replaceAll ['Ã', '¢'] ['a'] l)))))) = l
  rw [replaceAll_id 'Ã' (by decide) (by decide) hA,
      replaceAll_id 'Â' (by decide) (by decide) hA,
      replaceAll_id 'â' (by decide) (by decide) hA,
      replaceAll_id 'â' (by decide) (by decide) hA,
      replaceAll_id 'â' (by decide) (by decide) hA,
      replaceAll_id 'Ã' (by decide) (by decide) hA,
      replaceAll_id 'Ã' (by decide) (by decide) hA]

theorem mem_of_mem_dropWhile {p : Char → Bool} {l : List Char} {c : Char}
    (h : c ∈ l.dropWhile p) : c ∈ l :=
  (List.dropWhile_suffix p).subset h

theorem tryArt_ascii_none {l : List Char} (hA : Ascii l) : tryArt l = none := by
  cases l with
  | nil => rfl
  | cons c cs =>
    have hc : c.toNat < 128 := hA c (List.Mem.head _)
    have h1 : ¬(c = 'Ã') := fun he => by subst he; exact absurd hc (by decide)
    have h2 : ¬(c = 'Â') := fun he => by subst he; exact absurd hc (by decide)
    have h4 : ¬(c = 'â') := fun he => by subst he; exact absurd hc (by decide)
    rw [tryArt.eq_def]
    simp only [if_neg h1, if_neg h2, if_neg h4]
    by_cases hsp : isPySpace c = true
    · rw [if_pos hsp]
      cases hdw : cs.dropWhile isPySpace with
      | nil => simp [hdw]
      | cons d v =>
        have hd : d.toNat < 128 :=
          ascii_tail hA d (mem_of_mem_dropWhile (hdw ▸ List.Mem.head _))
        have hdA : ¬(d = 'Â') := fun he => by subst he; exact absurd hd (by decide)
        simp [hdw, if_neg hdA]
    · rw [if_neg hsp]

theorem scanArtF_id : ∀ (f : Nat) (l : List Char), Ascii l → scanArtF f l = l := by
  intro f
  induction f with
  | zero => intro l _; rfl
  | succ f ih =>
    intro l hA
    cases l with
    | nil => rfl
    | cons c cs =>
      simp only [scanArtF, tryArt_ascii_none hA]
      rw [ih cs (ascii_tail hA)]

theorem scanArt_id {l : List Char} (hA : Ascii l) : scanArt l = l :=
  scanArtF_id l.length l hA

theorem mapApos_id (l : List Char) : mapApos l = l := by
  unfold mapApos
  induction l with
  | nil => rfl
  | cons c cs ih =>
    by_cases h : c = '\x27' <;> simp [h, ih]

theorem mem_collapseWsAux {c : Char} :
    ∀ (l : List Char) (b : Bool), c ∈ collapseWsAux b l → c ∈ l ∨ c = ' ' := by
  intro l
  induction l with
  | nil => intro b h; simp [collapseWsAux] at h
  | cons a t ih =>
    intro b h
    cases ha : isPySpace a with
    | false =>
      simp only [collapseWsAux, ha] at h
      rcases List.mem_cons.mp h with he | ht
      · exact Or.inl (he ▸ List.Mem.head _)
      · rcases ih false ht with hm | he
        · exact Or.inl (List.Mem.tail _ hm)
        · exact Or.inr he
    | true =>
      simp only [collapseWsAux, ha] at h
      cases b with
      | true =>
        simp only [if_pos] at h
        rcases ih true h with hm | he
        · exact Or.inl (List.Mem.tail _ hm)
        · exact Or.inr he
      | false =>
        simp only [Bool.false_eq_true, if_false] at h
        rcases List.mem_cons.mp h with he | ht
        · exact Or.inr he
        · rcases ih true ht with hm | he
          · exact Or.inl (List.Mem.tail _ hm)
          · exact Or.inr he

theorem mem_collapseSpAux {c : Char} :
    ∀ (l : List Char) (b : Bool), c ∈ collapseSpAux b l → c ∈ l ∨ c = ' ' := by
  intro l
  induction l with
  | nil => intro b h; simp [collapseSpAux] at h
  | cons a t ih =>
    intro b h
    by_cases ha : a = ' '
    · simp only [collapseSpAux, if_pos ha] at h
      cases b with
      | true =>
        simp only [if_pos] at h
        rcases ih true h with hm | he
        · exact Or.inl (List.Mem.tail _ hm)
        · exact Or.inr he
      | false =>
        simp only [Bool.false_eq_true, if_false] at h
        rcases List.mem_cons.mp h with he | ht
        · exact Or.inr he
        · rcases ih true ht with hm | he
          · exact Or.inl (List.Mem.tail _ hm)
          · exact Or.inr he
    · simp only [collapseSpAux, if_neg ha] at h
      rcases List.mem_cons.mp h with he | ht
      · exact Or.inl (he ▸ List.Mem.head _)
      · rcases ih false ht with hm | he
        · exact Or.inl (List.Mem.tail _ hm)
        · exact Or.inr he

theorem trimWs_subset (l : List Char) : trimWs l ⊆ l := by
  intro c hc
  unfold trimWs at hc
  have h1 := List.mem_reverse.mp hc
  have h2 := (List.dropWhile_suffix isPySpace).subset h1
  have h3 := List.mem_reverse.mp h2
  exact (List.dropWhile_suffix isPySpace).subset h3

theorem cleanCore_ascii {l : List Char} (hA : Ascii l) : Ascii (cleanCore l) := by
  unfold cleanCore
  rw [litReplaces_id hA, scanArt_id hA, mapApos_id]
  intro c hc
  rcases mem_collapseWsAux _ false hc with hc | he
  · have hc := trimWs_subset _ hc
    rcases mem_collapseSpAux _ false hc with hc | he
    · have hc := trimWs_subset _ hc
      have hc := List.filter_subset' _ hc
      rcases mem_collapseWsAux _ false hc with hc | he
      · exact hA c (List.filter_subset' _ hc)
      · subst he; decide
    · subst he; decide
  · subst he; decide

/-! Construction invariants: the outputs of the collapse and trim
stages are canonical. -/

theorem collapseWsAux_wsCanon :
    ∀ (l : List Char) (b : Bool) (c : Char), c ∈ collapseWsAux b l →
      isPySpace c = true → c = ' ' := by
  intro l
  induction l with
  | nil => intro b c hc _; simp [collapseWsAux] at hc
  | cons a t ih =>
    intro b c hc hws
    cases ha : isPySpace a with
    | false =>
      simp only [collapseWsAux, ha, Bool.false_eq_true, if_false] at hc
      rcases List.mem_cons.mp hc with he | ht
      · subst he; rw [hws] at ha; cases ha
      · exact ih false c ht hws
    | true =>
      simp only [collapseWsAux, ha, if_true] at hc
      cases b with
      | true => exact ih true c (by simpa using hc) hws
      | false =>
        rcases List.mem_cons.mp (by simpa using hc) with he | ht
        · exact he
        · exact ih true c ht hws

theorem collapseWsAux_inv :
    ∀ l : List Char,
      (∀ c, (collapseWsAux true l).head? = some c → isPySpace c = false) ∧
      (∀ b, List.Chain' noWsPair (collapseWsAux b l)) := by
  intro l
  induction l with
  | nil =>
    refine ⟨fun c hc => by simp [collapseWsAux] at hc, fun b => ?_⟩
    simp [collapseWsAux]
  | cons a t ih =>
    obtain ⟨ihHead, ihChain⟩ := ih
    cases ha : isPySpace a with
    | false =>
      have hcons : ∀ b, collapseWsAux b (a :: t) = a :: collapseWsAux false t := by
        intro b; simp [collapseWsAux, ha]
      refine ⟨fun c hc => ?_, fun b => ?_⟩
      · rw [hcons true] at hc
        simp at hc
        rw [← hc]; exact ha
      · rw [hcons b]
        refine List.chain'_cons'.mpr ⟨fun y hy => ?_, ihChain false⟩
        intro hcon
        rw [ha] at hcon
        exact Bool.noConfusion hcon.1
    | true =>
      refine ⟨fun c hc => ?_, fun b => ?_⟩
      · simp only [collapseWsAux, ha, if_true, if_pos] at hc
        exact ihHead c hc
      · cases b with
        | true =>
          simp only [collapseWsAux, ha, if_true]
          exact ihChain true
        | false =>
          simp only [collapseWsAux, ha, if_true, Bool.false_eq_true, if_false]
          refine List.chain'_cons'.mpr ⟨fun y hy => ?_, ihChain true⟩
          intro hcon
          have := ihHead y hy
          rw [this] at hcon
          exact Bool.noConfusion hcon.2

theorem head?_dropWhile {p : Char → Bool} :
    ∀ (l : List Char) (c : Char), (l.dropWhile p).head? = some c → p c = false := by
  intro l
  induction l with
  | nil => intro c hc; simp at hc
  | cons a t ih =>
    intro c hc
    cases pa : p a with
    | true =>
      rw [List.dropWhile_cons, if_pos (by rw [pa])] at hc
      exact ih c hc
    | false =>
      rw [List.dropWhile_cons, if_neg (by rw [pa]; exact Bool.false_ne_true)] at hc
      simp at hc
      rw [← hc]; exact pa

theorem prefix_head {l₁ l₂ : List Char} (h : l₁ <+: l₂) {c : Char}
    (hc : l₁.head? = some c) : l₂.head? = some c := by
  obtain ⟨u, hu⟩ := h
  rw [← hu]
  cases l₁ with
  | nil => simp at hc
  | cons a t => simpa using hc

theorem rev_dropWhile_isPrefix (p : Char → Bool) (l : List Char) :
    (l.reverse.dropWhile p).reverse <+: l := by
  obtain ⟨u, hu⟩ := List.dropWhile_suffix (l := l.reverse) p
  refine ⟨u.reverse, ?_⟩
  have h2 := congrArg List.reverse hu
  simpa using h2

theorem trimWs_noLead (l : List Char) :
    ∀ c, (trimWs l).head? = some c → isPySpace c = false := by
  intro c hc
  unfold trimWs at hc
  exact head?_dropWhile _ c
    (prefix_head (rev_dropWhile_isPrefix isPySpace (l.dropWhile isPySpace)) hc)

theorem trimWs_noTrail (l : List Char) :
    ∀ c, (trimWs l).getLast? = some c → isPySpace c = false := by
  intro c hc
  unfold trimWs at hc
  rw [List.getLast?_reverse] at hc
  exact head?_dropWhile _ c hc

theorem collapseWsAux_ne_nil :
    ∀ (l : List Char), (∃ x ∈ l, isPySpace x = false) →
      ∀ b, collapseWsAux b l ≠ [] := by
  intro l
  induction l with
  | nil => rintro ⟨x, hx, -⟩; cases hx
  | cons a t ih =>
    rintro ⟨x, hx, hxw⟩ b
    cases ha : isPySpace a with
    | false => simp [collapseWsAux, ha]
    | true =>
      have hxt : x ∈ t := by
        rcases List.mem_cons.mp hx with he | ht
        · subst he; rw [hxw] at ha; cases ha
        · exact ht
      cases b with
      | true =>
        simp only [collapseWsAux, ha, if_true, if_pos]
        exact ih ⟨x, hxt, hxw⟩ true
      | false =>
        simp [collapseWsAux, ha]

theorem collapseWsAux_noTrail :
    ∀ (l : List Char) (b : Bool),
      (∀ c, l.getLast? = some c → isPySpace c = false) →
      ∀ c, (collapseWsAux b l).getLast? = some c → isPySpace c = false := by
  intro l
  induction l with
  | nil => intro b _ c hc; simp [collapseWsAux] at hc
  | cons a t ih =>
    intro b hT c hc
    cases t with
    | nil =>
      have ha : isPySpace a = false := hT a (by simp)
      have hstep : collapseWsAux b [a] = [a] := by
        cases b <;> simp [collapseWsAux, ha]
      rw [hstep] at hc
      simp at hc
      rw [← hc]; exact ha
    | cons a2 t2 =>
      have hT2 : ∀ c, (a2 :: t2).getLast? = some c → isPySpace c = false := by
        intro c hc2
        exact hT c (by rw [List.getLast?_cons_cons]; exact hc2)
      cases ha : isPySpace a with
      | false =>
        have hstep : collapseWsAux b (a :: a2 :: t2) =
            a :: collapseWsAux false (a2 :: t2) := by
          cases b <;> simp [collapseWsAux, ha]
        rw [hstep] at hc
        cases hrest : collapseWsAux false (a2 :: t2) with
        | nil =>
          rw [hrest] at hc
          simp at hc
          rw [← hc]; exact ha
        | cons r rs =>
          rw [hrest, List.getLast?_cons_cons] at hc
          exact ih false hT2 c (by rw [hrest]; exact hc)
      | true =>
        have hne : collapseWsAux true (a2 :: t2) ≠ [] := by
          apply collapseWsAux_ne_nil
          refine ⟨(a2 :: t2).getLast (by simp), List.getLast_mem _, ?_⟩
          exact hT2 _ (List.getLast?_eq_getLast _ _)
        cases b with
        | true =>
          have hstep : collapseWsAux true (a :: a2 :: t2) =
              collapseWsAux true (a2 :: t2) := by
            simp [collapseWsAux, ha]
          rw [hstep] at hc
          exact ih true hT2 c hc
        | false =>
          have hstep : collapseWsAux false (a :: a2 :: t2) =
              ' ' :: collapseWsAux true (a2 :: t2) := by
            simp [collapseWsAux, ha]
          rw [hstep] at hc
          cases hrest : collapseWsAux true (a2 :: t2) with
          | nil => exact absurd hrest hne
          | cons r rs =>
            rw [hrest, List.getLast?_cons_cons] at hc
            exact ih true hT2 c (by rw [hrest]; exact hc)

theorem collapseWsAux_noLead {l : List Char}
    (h : ∀ c, l.head? = some c → isPySpace c = false) :
    ∀ c, (collapseWsAux false l).head? = some c → isPySpace c = false := by
  intro c hc
  cases l with
  | nil => simp [collapseWsAux] at hc
  | cons a t =>
    have ha : isPySpace a = false := h a (by simp)
    simp only [collapseWsAux, ha, Bool.false_eq_true, if_false] at hc
    simp at hc
    rw [← hc]; exact ha

/-! Identity of each stage on canonical strings. -/

theorem collapseWsAux_id :
    ∀ (l : List Char) (b : Bool),
      (∀ c ∈ l, isPySpace c = true → c = ' ') →
      List.Chain' noWsPair l →
      (b = true → ∀ c, l.head? = some c → isPySpace c = false) →
      collapseWsAux b l = l := by
  intro l
  induction l with
  | nil => intro b _ _ _; rfl
  | cons a t ih =>
    intro b hCanon hChain hHead
    obtain ⟨hR, hChain2⟩ := List.chain'_cons'.mp hChain
    have hCanon2 : ∀ c ∈ t, isPySpace c = true → c = ' ' :=
      fun c hc => hCanon c (List.Mem.tail _ hc)
    cases ha : isPySpace a with
    | false =>
      have hstep : collapseWsAux b (a :: t) = a :: collapseWsAux false t := by
        cases b <;> simp [collapseWsAux, ha]
      rw [hstep, ih false hCanon2 hChain2 (fun h => Bool.noConfusion h)]
    | true =>
      cases b with
      | true => exact absurd ha (by rw [hHead rfl a (by simp)]; exact Bool.noConfusion)
      | false =>
        have ha2 : a = ' ' := hCanon a (List.Mem.head _) ha
        have hstep : collapseWsAux false (a :: t) = ' ' :: collapseWsAux true t := by
          simp [collapseWsAux, ha]
        rw [hstep, ih true hCanon2 hChain2 ?_, ha2]
        intro _ c hc
        have hr := hR c hc
        cases hw : isPySpace c
        · rfl
        · exact absurd ⟨ha, hw⟩ hr

theorem collapseSpAux_id :
    ∀ (l : List Char) (b : Bool),
      List.Chain' (fun x y => ¬(x = ' ' ∧ y = ' ')) l →
      (b = true → ∀ c, l.head? = some c → c ≠ ' ') →
      collapseSpAux b l = l := by
  intro l
  induction l with
  | nil => intro b _ _; rfl
  | cons a t ih =>
    intro b hChain hHead
    obtain ⟨hR, hChain2⟩ := List.chain'_cons'.mp hChain
    by_cases ha : a = ' '
    · cases b with
      | true => exact absurd ha (hHead rfl a (by simp))
      | false =>
        have hstep : collapseSpAux false (a :: t) = ' ' :: collapseSpAux true t := by
          simp [collapseSpAux, ha]
        rw [hstep, ih true hChain2 ?_, ha]
        intro _ c hc hc2
        exact hR c hc ⟨ha, hc2⟩
    · have hstep : collapseSpAux b (a :: t) = a :: collapseSpAux false t := by
        cases b <;> simp [collapseSpAux, ha]
      rw [hstep, ih false hChain2 (fun h => Bool.noConfusion h)]

theorem trimWs_id {l : List Char}
    (hLead : ∀ c, l.head? = some c → isPySpace c = false)
    (hTrail : ∀ c, l.getLast? = some c → isPySpace c = false) :
    trimWs l = l := by
  unfold trimWs
  have h1 : l.dropWhile isPySpace = l := by
    cases l with
    | nil => rfl
    | cons a t =>
      have ha := hLead a (by simp)
      rw [List.dropWhile_cons, if_neg (by rw [ha]; exact Bool.false_ne_true)]
  rw [h1]
  have h2 : l.reverse.dropWhile isPySpace = l.reverse := by
    cases hr : l.reverse with
    | nil => rfl
    | cons a t =>
      have hla : l.getLast? = some a := by
        rw [← List.head?_reverse, hr]; rfl
      have ha := hTrail a hla
      rw [List.dropWhile_cons, if_neg (by rw [ha]; exact Bool.false_ne_true)]
  rw [h2, List.reverse_reverse]

theorem filterQuotes_id {l : List Char} (hK : ∀ c ∈ l, keepChar c = true) :
    filterQuotes l = l := by
  apply List.filter_eq_self.mpr
  intro a ha
  have hk := hK a ha
  by_cases h : a = '"'
  · rw [h] at hk; exact absurd hk (by decide)
  · simpa using h

theorem filterSpecial_id {l : List Char} (hK : ∀ c ∈ l, keepChar c = true) :
    filterSpecial l = l :=
  List.filter_eq_self.mpr hK

/-! The full invariant bundle of the `cleanCore` output, for every
input, and idempotence on ASCII input. -/

theorem cleanCore_eq (l : List Char) :
    cleanCore l =
      collapseWsAux false (trimWs (collapseSpAux false (trimWs (filterSpecial
        (collapseWsAux false (filterQuotes (mapApos (scanArt
          (litReplaces l))))))))) := rfl

/-- Invariants of the tail of the pipeline (whitespace collapse,
special-character filter, trims, space collapse, final collapse),
for an arbitrary intermediate string `y`. -/
theorem tail_inv (y : List Char) :
    (∀ c ∈ collapseWsAux false (trimWs (collapseSpAux false (trimWs
        (filterSpecial (collapseWsAux false y))))), keepChar c = true) ∧
    (∀ c ∈ collapseWsAux false (trimWs (collapseSpAux false (trimWs
        (filterSpecial (collapseWsAux false y))))),
      isPySpace c = true → c = ' ') ∧
    List.Chain' noWsPair (collapseWsAux false (trimWs (collapseSpAux false
      (trimWs (filterSpecial (collapseWsAux false y)))))) ∧
    (∀ c, (collapseWsAux false (trimWs (collapseSpAux false (trimWs
        (filterSpecial (collapseWsAux false y)))))).head? = some c →
      isPySpace c = false) ∧
    (∀ c, (collapseWsAux false (trimWs (collapseSpAux false (trimWs
        (filterSpecial (collapseWsAux false y)))))).getLast? = some c →
      isPySpace c = false) := by
  refine ⟨?_, ?_, ?_, ?_, ?_⟩
  · intro c hc
    rcases mem_collapseWsAux _ false hc with hc | he
    · have hc := trimWs_subset _ hc
      rcases mem_collapseSpAux _ false hc with hc | he
      · have hc := trimWs_subset _ hc
        exact List.of_mem_filter hc
      · subst he; decide
    · subst he; decide
  · exact fun c hc => collapseWsAux_wsCanon _ false c hc
  · exact (collapseWsAux_inv _).2 false
  · exact collapseWsAux_noLead (trimWs_noLead _)
  · exact collapseWsAux_noTrail _ false (trimWs_noTrail _)

theorem cleanCore_inv (l : List Char) :
    (∀ c ∈ cleanCore l, keepChar c = true) ∧
    (∀ c ∈ cleanCore l, isPySpace c = true → c = ' ') ∧
    List.Chain' noWsPair (cleanCore l) ∧
    (∀ c, (cleanCore l).head? = some c → isPySpace c = false) ∧
    (∀ c, (cleanCore l).getLast? = some c → isPySpace c = false) := by
  rw [cleanCore_eq]
  exact tail_inv (filterQuotes (mapApos (scanArt (litReplaces l))))

theorem cleanCore_idem {l : List Char} (hA : Ascii l) :
    cleanCore (cleanCore l) = cleanCore l := by
  have hAW : Ascii (cleanCore l) := cleanCore_ascii hA
  have hinv := cleanCore_inv l
  generalize hW : cleanCore l = W at hAW hinv ⊢
  obtain ⟨hKeep, hCanon, hChain, hLead, hTrail⟩ := hinv
  have hCW : collapseWsAux false W = W :=
    collapseWsAux_id W false hCanon hChain (fun h => Bool.noConfusion h)
  have hTW : trimWs W = W := trimWs_id hLead hTrail
  have hSP : collapseSpAux false W = W := by
    apply collapseSpAux_id W false _ (fun h => Bool.noConfusion h)
    refine hChain.imp fun a b hab => ?_
    intro h2
    exact hab ⟨by rw [h2.1]; rfl, by rw [h2.2]; rfl⟩
  rw [cleanCore_eq W]
  rw [litReplaces_id hAW, scanArt_id hAW, mapApos_id, filterQuotes_id hKeep]
  rw [hCW, filterSpecial_id hKeep, hTW, hSP, hTW, hCW]

/-- C3 (counterexample): text repair is not idempotent.  On the input
`"Ã ,a"` the artifact pattern `Ã\s*\w` has no match (the comma blocks
it), but the comma is deleted later by the special-character step, so
the output `"Ã a"` is matched by the artifact pattern on a second run
and collapses to `"Unknown"`. -/
theorem clean_text_not_idempotent :
    clean_text (some "Ã ,a") = "Ã a" ∧
    clean_text (some (clean_text (some "Ã ,a"))) = "Unknown" ∧
    clean_text (some (clean_text (some "Ã ,a"))) ≠ clean_text (some "Ã ,a") := by
  refine ⟨by decide, by decide, by decide⟩

theorem clean_text_some (s : String) :
    clean_text (some s) =
      if (cleanCore s.toList).isEmpty then "Unknown"
      else String.mk (cleanCore s.toList) := rfl

theorem clean_text_mk (x : List Char) :
    clean_text (some (String.mk x)) =
      if (cleanCore x).isEmpty then "Unknown" else String.mk (cleanCore x) := rfl

/-- C3 (amended): text repair is idempotent on every input whose
characters are ASCII: `clean_text (clean_text x) = clean_text x`.  (On
non-ASCII input idempotence can fail, see the counterexample.) -/
theorem clean_text_idempotent_ascii :
    ∀ s : String, Ascii s.toList →
      clean_text (some (clean_text (some s))) = clean_text (some s) := by
  intro s hA
  by_cases hE : cleanCore s.toList = []
  · have h1 : clean_text (some s) = "Unknown" := by
      rw [clean_text_some, if_pos (by rw [hE]; rfl)]
    rw [h1]
    decide
  · have hne : ¬((cleanCore s.toList).isEmpty = true) := by
      simp only [String.toList] at hE
      simp [List.isEmpty_iff, hE]
    have h1 : clean_text (some s) = String.mk (cleanCore s.toList) := by
      rw [clean_text_some, if_neg hne]
    rw [h1, clean_text_mk, cleanCore_idem hA, if_neg hne]

theorem clean_text_idempotent_ascii_witness :
    clean_text (some (clean_text (some "  hello,,  world!! "))) =
      clean_text (some "  hello,,  world!! ") :=
  clean_text_idempotent_ascii "  hello,,  world!! " (by decide)

end ElectionCleaning
